import Mathlib

/-!
Verification development for the wotrlay relay admission core.

The Go sources are shallowly embedded: times are rational numbers of
seconds, Go float64 arithmetic is modelled over ℚ, maps become functions
into Option, and the stateful methods become pure functions returning the
new state.
-/

set_option linter.unusedVariables false

namespace Wotrlay

/-! ## Token-bucket limiter

Translated from the limiter source file: `Bucket`, `refillLocked`,
`getOrCreateBucket`, `Consume`, `Allow`, `GetTokens`, `Clean`.  The
`sync` locks disappear in this sequential model; the map of buckets is a
function from key to `Option Bucket`.
-/

structure Bucket where
  tokens : ℚ
  capacity : ℚ
  refillRate : ℚ
  lastActive : ℚ
deriving DecidableEq

abbrev LimiterState := String → Option Bucket

def emptyLimiter : LimiterState := fun _ => none

def setBucket (lim : LimiterState) (id : String) (b : Bucket) : LimiterState :=
  fun k => if k = id then some b else lim k

/-- `refillLocked` from the source: refill tokens for the elapsed time,
clamped at capacity; a no-op unless the elapsed time is positive. -/
def refillLocked (b : Bucket) (now : ℚ) : Bucket :=
  let elapsed := now - b.lastActive
  if 0 < elapsed then
    let t := b.tokens + elapsed * b.refillRate
    { b with tokens := if b.capacity < t then b.capacity else t, lastActive := now }
  else b

/-- `getOrCreateBucket` from the source: return the existing bucket, or
insert a new one that starts full. -/
def getOrCreateBucket (lim : LimiterState) (id : String) (capacity refillRate now : ℚ) :
    Bucket × LimiterState :=
  match lim id with
  | some b => (b, lim)
  | none =>
    let b : Bucket :=
      { tokens := capacity, capacity := capacity,
        refillRate := refillRate, lastActive := now }
    (b, setBucket lim id b)

/-- `Consume` from the source: overwrite capacity and refill rate, refill
for elapsed time, then subtract the cost when enough tokens are present. -/
def Consume (lim : LimiterState) (id : String) (cost capacity refillRate now : ℚ) :
    Bool × LimiterState :=
  let p := getOrCreateBucket lim id capacity refillRate now
  let b1 := { p.1 with capacity := capacity, refillRate := refillRate }
  let b2 := refillLocked b1 now
  if b2.tokens < cost then (false, setBucket p.2 id b2)
  else (true, setBucket p.2 id { b2 with tokens := b2.tokens - cost })

/-- `Allow` from the source: `Consume` with cost 1. -/
def Allow (lim : LimiterState) (id : String) (capacity refillRate now : ℚ) :
    Bool × LimiterState :=
  Consume lim id 1 capacity refillRate now

/-- `GetTokens` from the source: refill, then report the token count. -/
def GetTokens (lim : LimiterState) (id : String) (now : ℚ) : ℚ × LimiterState :=
  match lim id with
  | none => (0, lim)
  | some b =>
    let b2 := refillLocked b now
    (b2.tokens, setBucket lim id b2)

/-- `Clean` from the source: drop buckets idle for longer than the TTL. -/
def Clean (lim : LimiterState) (now ttl : ℚ) : LimiterState :=
  fun k =>
    match lim k with
    | some b => if ttl < now - b.lastActive then none else some b
    | none => none

/-! Operation traces over the limiter, used to state the bucket invariant. -/

inductive LimiterOp where
  | getOrCreate (id : String) (capacity refillRate : ℚ)
  | consume (id : String) (cost capacity refillRate : ℚ)
  | getTokens (id : String)
  | clean (ttl : ℚ)

def applyOp (lim : LimiterState) (now : ℚ) : LimiterOp → LimiterState
  | .getOrCreate id c r => (getOrCreateBucket lim id c r now).2
  | .consume id cost c r => (Consume lim id cost c r now).2
  | .getTokens id => (GetTokens lim id now).2
  | .clean ttl => Clean lim now ttl

def runOps (lim : LimiterState) : List (ℚ × LimiterOp) → LimiterState
  | [] => lim
  | (t, op) :: rest => runOps (applyOp lim t op) rest

/-- Nonnegative parameters for one operation. -/
def opOK : LimiterOp → Prop
  | .getOrCreate _ c r => 0 ≤ c ∧ 0 ≤ r
  | .consume _ cost c r => 0 ≤ cost ∧ 0 ≤ c ∧ 0 ≤ r
  | .getTokens _ => True
  | .clean _ => True

/-- The timestamps of a trace are strictly increasing, starting above `t0`. -/
def timesOK : ℚ → List (ℚ × LimiterOp) → Prop
  | _, [] => True
  | t0, (t, _) :: rest => t0 < t ∧ timesOK t rest

/-- Invariant carried through a trace: every bucket holds between 0 and
`capacity` tokens, has a nonnegative refill rate, and was last active no
later than `T`. -/
def BucketInvariant (T : ℚ) (lim : LimiterState) : Prop :=
  ∀ id b, lim id = some b →
    0 ≤ b.tokens ∧ b.tokens ≤ b.capacity ∧ 0 ≤ b.refillRate ∧ b.lastActive ≤ T

theorem setBucket_same (lim : LimiterState) (id : String) (b : Bucket) :
    setBucket lim id b id = some b := by
  simp [setBucket]

theorem setBucket_other (lim : LimiterState) (id k : String) (b : Bucket)
    (h : k ≠ id) : setBucket lim id b k = lim k := by
  simp [setBucket, h]

theorem Consume_other (lim : LimiterState) (id k : String)
    (cost capacity refillRate now : ℚ) (h : k ≠ id) :
    (Consume lim id cost capacity refillRate now).2 k = lim k := by
  unfold Consume getOrCreateBucket
  cases hid : lim id <;> dsimp <;> split <;>
    simp [setBucket_other _ _ _ _ h, setBucket, h]

theorem applyOp_preserves (lim : LimiterState) (T now : ℚ) (op : LimiterOp)
    (hinv : BucketInvariant T lim) (hT : T < now) (hop : opOK op) :
    BucketInvariant now (applyOp lim now op) := by
  cases op with
  | getOrCreate id c r =>
    obtain ⟨hc, hr⟩ := hop
    intro k b hk
    simp only [applyOp] at hk
    unfold getOrCreateBucket at hk
    cases hid : lim id with
    | some b0 =>
      rw [hid] at hk
      obtain ⟨h1, h2, h3, h4⟩ := hinv k b hk
      exact ⟨h1, h2, h3, le_trans h4 (le_of_lt hT)⟩
    | none =>
      rw [hid] at hk
      dsimp [setBucket] at hk
      by_cases hkid : k = id
      · simp [hkid] at hk
        subst hk
        exact ⟨hc, le_refl _, hr, le_refl _⟩
      · simp [hkid] at hk
        obtain ⟨h1, h2, h3, h4⟩ := hinv k b hk
        exact ⟨h1, h2, h3, le_trans h4 (le_of_lt hT)⟩
  | consume id cost c r =>
    obtain ⟨hcost, hc, hr⟩ := hop
    intro k b hk
    simp only [applyOp] at hk
    by_cases hkid : k = id
    · subst hkid
      -- the bucket the call operates on
      unfold Consume getOrCreateBucket at hk
      cases hid : lim k with
      | some b0 =>
        rw [hid] at hk
        dsimp only at hk
        obtain ⟨h1, h2, h3, h4⟩ := hinv k b0 hid
        have help : 0 < now - b0.lastActive := by linarith
        have hrefill :
            refillLocked { b0 with capacity := c, refillRate := r } now =
            { tokens := if c < b0.tokens + (now - b0.lastActive) * r then c
                        else b0.tokens + (now - b0.lastActive) * r,
              capacity := c, refillRate := r, lastActive := now } := by
          simp [refillLocked, help]
        rw [hrefill] at hk
        dsimp only at hk
        have htnn : 0 ≤ b0.tokens + (now - b0.lastActive) * r :=
          add_nonneg h1 (mul_nonneg (le_of_lt help) hr)
        set t2 : ℚ := if c < b0.tokens + (now - b0.lastActive) * r then c
                      else b0.tokens + (now - b0.lastActive) * r with ht2
        have h0t2 : 0 ≤ t2 := by
          rw [ht2]; split <;> [exact hc; exact htnn]
        have ht2c : t2 ≤ c := by
          rw [ht2]; split <;> [exact le_refl _; linarith [not_lt.mp (by assumption)]]
        split at hk
        · dsimp only at hk
          rw [setBucket_same] at hk
          injection hk with hk
          subst hk
          exact ⟨h0t2, ht2c, hr, le_refl _⟩
        · dsimp only at hk
          rw [setBucket_same] at hk
          injection hk with hk
          subst hk
          refine ⟨?_, ?_, hr, le_refl _⟩
          · have hnot : ¬ (t2 < cost) := by assumption
            dsimp; linarith [not_lt.mp hnot]
          · dsimp; linarith
      | none =>
        rw [hid] at hk
        dsimp only at hk
        have hrefill :
            refillLocked { tokens := c, capacity := c, refillRate := r, lastActive := now } now
              = { tokens := c, capacity := c, refillRate := r, lastActive := now } := by
          simp [refillLocked]
        rw [hrefill] at hk
        dsimp only at hk
        split at hk
        · dsimp only at hk
          rw [setBucket_same] at hk
          injection hk with hk
          subst hk
          exact ⟨hc, le_refl _, hr, le_refl _⟩
        · dsimp only at hk
          rw [setBucket_same] at hk
          injection hk with hk
          subst hk
          have hnot : ¬ (c < cost) := by assumption
          exact ⟨by dsimp; linarith [not_lt.mp hnot], by dsimp; linarith, hr, le_refl _⟩
    · -- a different key is untouched
      rw [Consume_other lim id k cost c r now hkid] at hk
      obtain ⟨h1, h2, h3, h4⟩ := hinv k b hk
      exact ⟨h1, h2, h3, le_trans h4 (le_of_lt hT)⟩
  | getTokens id =>
    intro k b hk
    simp only [applyOp] at hk
    unfold GetTokens at hk
    cases hid : lim id with
    | none => rw [hid] at hk
              obtain ⟨h1, h2, h3, h4⟩ := hinv k b hk
              exact ⟨h1, h2, h3, le_trans h4 (le_of_lt hT)⟩
    | some b0 =>
      rw [hid] at hk
      dsimp [setBucket] at hk
      obtain ⟨h1, h2, h3, h4⟩ := hinv id b0 hid
      by_cases hkid : k = id
      · simp [hkid] at hk
        have help : 0 < now - b0.lastActive := by linarith
        have htnn : 0 ≤ b0.tokens + (now - b0.lastActive) * b0.refillRate :=
          add_nonneg h1 (mul_nonneg (le_of_lt help) h3)
        rw [refillLocked] at hk
        simp only [help, if_pos] at hk
        subst hk
        dsimp
        refine ⟨?_, ?_, h3, le_refl _⟩
        · split <;> [linarith; exact htnn]
        · split <;> [exact le_refl _; linarith [not_lt.mp (by assumption)]]
      · simp [hkid] at hk
        obtain ⟨g1, g2, g3, g4⟩ := hinv k b hk
        exact ⟨g1, g2, g3, le_trans g4 (le_of_lt hT)⟩
  | clean ttl =>
    intro k b hk
    simp only [applyOp] at hk
    unfold Clean at hk
    cases hid : lim k with
    | none => rw [hid] at hk; exact absurd hk (by simp)
    | some b0 =>
      rw [hid] at hk
      obtain ⟨h1, h2, h3, h4⟩ := hinv k b0 hid
      by_cases hc : ttl < now - b0.lastActive
      · simp [hc] at hk
      · simp [hc] at hk
        subst hk
        exact ⟨h1, h2, h3, le_trans h4 (le_of_lt hT)⟩

/-- C2 (amended): when the call strictly advances the bucket's clock
(`lastActive < now`), `Consume` overwrites capacity and refill rate,
refills to `t1 = min capacity (tokens + elapsed·refillRate)`, stamps
`lastActive = now`, and returns true leaving `t1 - cost` iff `t1 ≥ cost`,
otherwise false leaving `t1`.  (The claim's unconditional version fails
when `now = lastActive`, see the counterexample.) -/
theorem consume_refill_and_charge (lim : LimiterState) (id : String) (b0 : Bucket)
    (cost capacity refillRate now : ℚ)
    (hb : lim id = some b0) (ht : b0.lastActive < now) :
    ∃ b1, (Consume lim id cost capacity refillRate now).2 id = some b1 ∧
      b1.capacity = capacity ∧ b1.refillRate = refillRate ∧ b1.lastActive = now ∧
      ((Consume lim id cost capacity refillRate now).1 = true ↔
        cost ≤ min capacity (b0.tokens + (now - b0.lastActive) * refillRate)) ∧
      b1.tokens =
        (if cost ≤ min capacity (b0.tokens + (now - b0.lastActive) * refillRate)
         then min capacity (b0.tokens + (now - b0.lastActive) * refillRate) - cost
         else min capacity (b0.tokens + (now - b0.lastActive) * refillRate)) := by
  have help : 0 < now - b0.lastActive := by linarith
  have hrefill :
      refillLocked { b0 with capacity := capacity, refillRate := refillRate } now =
      { tokens := min capacity (b0.tokens + (now - b0.lastActive) * refillRate),
        capacity := capacity, refillRate := refillRate, lastActive := now } := by
    simp only [refillLocked]
    rw [if_pos help]
    congr 1
    rw [min_def]
    by_cases h : capacity < b0.tokens + (now - b0.lastActive) * refillRate
    · rw [if_pos h, if_pos (le_of_lt h)]
    · rw [if_neg h]
      by_cases h2 : capacity ≤ b0.tokens + (now - b0.lastActive) * refillRate
      · rw [if_pos h2]
        exact le_antisymm (not_lt.mp h) h2
      · rw [if_neg h2]
  unfold Consume getOrCreateBucket
  rw [hb]
  dsimp only
  rw [hrefill]
  dsimp only
  by_cases hlt : min capacity (b0.tokens + (now - b0.lastActive) * refillRate) < cost
  · rw [if_pos hlt]
    dsimp only
    refine ⟨_, setBucket_same _ _ _, rfl, rfl, rfl, ?_, ?_⟩
    · simp only [Bool.false_eq_true, false_iff, not_le]
      exact hlt
    · rw [if_neg (not_le.mpr hlt)]
  · rw [if_neg hlt]
    dsimp only
    refine ⟨_, setBucket_same _ _ _, rfl, rfl, rfl, ?_, ?_⟩
    · simp only [true_iff]
      exact not_lt.mp hlt
    · rw [if_pos (not_lt.mp hlt)]

/-- C2 witness: a concrete instantiation of `consume_refill_and_charge`:
bucket with 2 tokens, refill rate 1, idle for 10 seconds, charged 3 against
capacity 5: the call succeeds and leaves `min 5 (2 + 10·1) - 3 = 2` tokens. -/
theorem consume_refill_and_charge_witness :
    ∃ b1, (Consume (setBucket emptyLimiter "k" ⟨2, 5, 1, 0⟩) "k" 3 5 1 10).2 "k" = some b1 ∧
      b1.capacity = 5 ∧ b1.refillRate = 1 ∧ b1.lastActive = 10 ∧
      ((Consume (setBucket emptyLimiter "k" ⟨2, 5, 1, 0⟩) "k" 3 5 1 10).1 = true ↔
        (3:ℚ) ≤ min 5 (2 + (10 - 0) * 1)) ∧
      b1.tokens =
        (if (3:ℚ) ≤ min 5 (2 + (10 - 0) * 1)
         then min 5 (2 + (10 - 0) * 1) - 3
         else min 5 (2 + (10 - 0) * 1)) :=
  consume_refill_and_charge (setBucket emptyLimiter "k" ⟨2, 5, 1, 0⟩) "k" ⟨2, 5, 1, 0⟩
    3 5 1 10 rfl (by norm_num)

/-- C2 counterexample: with `now = lastActive` the refill (and its clamp to
the new, smaller capacity) is skipped, so a `Consume` that the claim says
must fail (claimed tokens `min 5 10 = 5 < 7`) in fact succeeds and leaves
3 tokens, above the claimed `min capacity (tokens + elapsed·rate) = 5`. -/
theorem consume_claim_counterexample :
    (Consume (setBucket emptyLimiter "k" ⟨10, 10, 0, 0⟩) "k" 7 5 0 0).1 = true ∧
    (Consume (setBucket emptyLimiter "k" ⟨10, 10, 0, 0⟩) "k" 7 5 0 0).2 "k" =
      some ⟨3, 5, 0, 0⟩ ∧
    min (5:ℚ) (10 + (0 - 0) * 0) < 7 := by
  refine ⟨?_, ?_, by norm_num⟩ <;>
    norm_num [Consume, getOrCreateBucket, refillLocked, setBucket, emptyLimiter]

/-- C3 (amended): along any trace of limiter operations with nonnegative
costs, capacities and refill rates whose call times strictly increase,
every bucket satisfies `0 ≤ tokens ≤ capacity`.  (Without strictly
advancing time the invariant fails, see the counterexample.) -/
theorem runOps_tokens_in_range (ops : List (ℚ × LimiterOp)) (t0 : ℚ) (lim : LimiterState)
    (hinv : BucketInvariant t0 lim) (hts : timesOK t0 ops)
    (hops : ∀ p ∈ ops, opOK p.2) :
    ∀ id b, runOps lim ops id = some b → 0 ≤ b.tokens ∧ b.tokens ≤ b.capacity := by
  induction ops generalizing t0 lim with
  | nil =>
    intro id b h
    obtain ⟨h1, h2, _, _⟩ := hinv id b h
    exact ⟨h1, h2⟩
  | cons p rest ih =>
    obtain ⟨t, op⟩ := p
    obtain ⟨hlt, hts'⟩ := hts
    exact ih t (applyOp lim t op)
      (applyOp_preserves lim t0 t op hinv hlt (hops (t, op) (List.mem_cons_self _ _)))
      hts' (fun q hq => hops q (List.mem_cons_of_mem _ hq))

/-- C3 witness: running `getOrCreateBucket` then `Consume` at strictly
increasing times from the empty limiter leaves the bucket within range. -/
theorem runOps_tokens_in_range_witness :
    ∃ b, runOps emptyLimiter
        [(1, LimiterOp.getOrCreate "k" 10 0), (2, LimiterOp.consume "k" 1 10 0)] "k" = some b
      ∧ 0 ≤ b.tokens ∧ b.tokens ≤ b.capacity := by
  have hrun : runOps emptyLimiter
      [(1, LimiterOp.getOrCreate "k" 10 0), (2, LimiterOp.consume "k" 1 10 0)] "k"
      = some ⟨9, 10, 0, 2⟩ := by
    norm_num [runOps, applyOp, Consume, getOrCreateBucket, refillLocked, setBucket,
      emptyLimiter]
  refine ⟨⟨9, 10, 0, 2⟩, hrun, ?_⟩
  exact runOps_tokens_in_range
    [(1, LimiterOp.getOrCreate "k" 10 0), (2, LimiterOp.consume "k" 1 10 0)] 0 emptyLimiter
    (fun id b h => nomatch h)
    (by constructor <;> norm_num [timesOK])
    (by intro p hp
        rcases List.mem_cons.mp hp with h | h
        · subst h; exact ⟨by norm_num, by norm_num⟩
        · rcases List.mem_cons.mp h with h | h
          · subst h; exact ⟨by norm_num, by norm_num, by norm_num⟩
          · cases h)
    "k" ⟨9, 10, 0, 2⟩ hrun

/-- C3 counterexample: the claim allows arbitrary capacity arguments and
does not constrain the call times; creating a bucket with capacity 10 and
then consuming with capacity 5 at the same instant leaves 9 tokens in a
bucket of capacity 5, violating `tokens ≤ capacity`. -/
theorem runOps_claim_counterexample :
    runOps emptyLimiter
      [(0, LimiterOp.getOrCreate "k" 10 0), (0, LimiterOp.consume "k" 1 5 0)] "k"
      = some ⟨9, 5, 0, 0⟩ ∧ ¬ ((9:ℚ) ≤ 5) := by
  constructor
  · norm_num [runOps, applyOp, Consume, getOrCreateBucket, refillLocked, setBucket,
      emptyLimiter]
  · norm_num

/-! ## Configuration and the daily-rate curve

`Config` keeps the four fields the admission core branches on; the
remaining fields of the source struct are relay metadata strings that no
claim mentions.  `calculateDailyRate` is the tiered curve from the main
source file.
-/

structure Config where
  MidThreshold : ℚ
  HighThreshold : Option ℚ
  URLPolicyEnabled : Bool
  RankQueueIPDailyLimit : ℚ

/-- `calculateDailyRate` from the source: target events per day by trust
score.  The Go switch falls through in order: `r ≤ 0`, `r < MidThreshold`,
`HighThreshold ≠ nil ∧ r < HighThreshold`, default. -/
def calculateDailyRate (r : ℚ) (cfg : Config) : ℚ :=
  if r ≤ 0 then 1
  else if r < cfg.MidThreshold then 1 + (r / cfg.MidThreshold) * 99
  else
    match cfg.HighThreshold with
    | some h => if r < h then 100 + ((r - cfg.MidThreshold) / (h - cfg.MidThreshold)) * 4900
                else 10000
    | none => 10000

/-- Pointwise (ε-δ) continuity of a rational function at a point. -/
def ContAt (f : ℚ → ℚ) (a : ℚ) : Prop :=
  ∀ ε : ℚ, 0 < ε → ∃ δ : ℚ, 0 < δ ∧ ∀ x : ℚ, |x - a| < δ → |f x - f a| < ε

/-- One-sided (ε-δ) limit of a rational function from the left. -/
def TendsToFromLeft (f : ℚ → ℚ) (a L : ℚ) : Prop :=
  ∀ ε : ℚ, 0 < ε → ∃ δ : ℚ, 0 < δ ∧ ∀ x : ℚ, a - δ < x → x < a → |f x - L| < ε

theorem rate_tierB (M : ℚ) (H : Option ℚ) (u : Bool) (q x : ℚ)
    (h0 : 0 < x) (hxM : x < M) :
    calculateDailyRate x ⟨M, H, u, q⟩ = 1 + (x / M) * 99 := by
  unfold calculateDailyRate
  rw [if_neg (not_le.mpr h0), if_pos hxM]

theorem rate_tierC (M h : ℚ) (u : Bool) (q x : ℚ)
    (hM0 : 0 < M) (hMx : M ≤ x) (hxh : x < h) :
    calculateDailyRate x ⟨M, some h, u, q⟩ =
      100 + ((x - M) / (h - M)) * 4900 := by
  unfold calculateDailyRate
  rw [if_neg (not_le.mpr (lt_of_lt_of_le hM0 hMx)), if_neg (not_lt.mpr hMx)]
  dsimp only
  rw [if_pos hxh]

theorem rate_tierD (M h : ℚ) (u : Bool) (q x : ℚ)
    (hM0 : 0 < M) (hMh : M < h) (hx : h ≤ x) :
    calculateDailyRate x ⟨M, some h, u, q⟩ = 10000 := by
  unfold calculateDailyRate
  rw [if_neg (not_le.mpr (lt_of_lt_of_le (lt_trans hM0 hMh) hx)),
    if_neg (not_lt.mpr (le_trans (le_of_lt hMh) hx))]
  dsimp only
  rw [if_neg (not_lt.mpr hx)]

theorem rate_at_mid (M h : ℚ) (hM0 : 0 < M) (hMh : M < h) :
    calculateDailyRate M ⟨M, some h, false, 0⟩ = 100 := by
  rw [rate_tierC M h false 0 M hM0 le_rfl hMh, sub_self, zero_div, zero_mul, add_zero]

theorem rate_contAt_mid (M h : ℚ) (hM0 : 0 < M) (hMh : M < h) :
    ContAt (fun r => calculateDailyRate r ⟨M, some h, false, 0⟩) M := by
  intro ε hε
  have hspan : 0 < h - M := by linarith
  refine ⟨min (min M (h - M)) (min (ε * M / 99) (ε * (h - M) / 4900)), ?_, ?_⟩
  · refine lt_min (lt_min hM0 hspan) (lt_min ?_ ?_) <;> positivity
  · intro x hx
    have hδ1 : min (min M (h - M)) (min (ε * M / 99) (ε * (h - M) / 4900)) ≤ M :=
      le_trans (min_le_left _ _) (min_le_left _ _)
    have hδ2 : min (min M (h - M)) (min (ε * M / 99) (ε * (h - M) / 4900)) ≤ h - M :=
      le_trans (min_le_left _ _) (min_le_right _ _)
    have hδ3 : min (min M (h - M)) (min (ε * M / 99) (ε * (h - M) / 4900)) ≤ ε * M / 99 :=
      le_trans (min_le_right _ _) (min_le_left _ _)
    have hδ4 : min (min M (h - M)) (min (ε * M / 99) (ε * (h - M) / 4900)) ≤
        ε * (h - M) / 4900 :=
      le_trans (min_le_right _ _) (min_le_right _ _)
    rw [abs_lt] at hx
    dsimp only
    rw [rate_at_mid M h hM0 hMh]
    by_cases hxM : x < M
    · have h0x : 0 < x := by linarith
      rw [rate_tierB M (some h) false 0 x h0x hxM]
      have hkey : (M - x) * 99 < ε * M := by
        have h99 : M - x < ε * M / 99 := by linarith
        calc (M - x) * 99 < ε * M / 99 * 99 :=
              mul_lt_mul_of_pos_right h99 (by norm_num)
          _ = ε * M := by field_simp
      rw [abs_lt]
      constructor
      · have hexp : 1 + x / M * 99 - 100 = -((M - x) * 99 / M) := by
          field_simp
          ring
        rw [hexp]
        have hlt : (M - x) * 99 / M < ε := (div_lt_iff₀ hM0).mpr (by linarith)
        linarith
      · have hlt1 : x / M < 1 := (div_lt_one hM0).mpr hxM
        have := mul_lt_mul_of_pos_right hlt1 (by norm_num : (0:ℚ) < 99)
        linarith
    · have hMx : M ≤ x := not_lt.mp hxM
      have hxh : x < h := by linarith
      rw [rate_tierC M h false 0 x hM0 hMx hxh]
      have hexp : 100 + (x - M) / (h - M) * 4900 - 100 = (x - M) * 4900 / (h - M) := by
        ring
      rw [hexp, abs_lt]
      constructor
      · have hge : 0 ≤ (x - M) * 4900 / (h - M) :=
          div_nonneg (mul_nonneg (by linarith) (by norm_num)) (le_of_lt hspan)
        linarith
      · have hkey : (x - M) * 4900 < ε * (h - M) := by
          have h49 : x - M < ε * (h - M) / 4900 := by linarith
          calc (x - M) * 4900 < ε * (h - M) / 4900 * 4900 :=
                mul_lt_mul_of_pos_right h49 (by norm_num)
            _ = ε * (h - M) := by field_simp
        exact (div_lt_iff₀ hspan).mpr (by linarith)

theorem rate_leftLim_high (M h : ℚ) (hM0 : 0 < M) (hMh : M < h) :
    TendsToFromLeft (fun r => calculateDailyRate r ⟨M, some h, false, 0⟩) h 5000 := by
  intro ε hε
  have hspan : 0 < h - M := by linarith
  refine ⟨min (h - M) (ε * (h - M) / 4900), lt_min hspan (by positivity), ?_⟩
  intro x hx1 hx2
  have hδ1 : min (h - M) (ε * (h - M) / 4900) ≤ h - M := min_le_left _ _
  have hδ2 : min (h - M) (ε * (h - M) / 4900) ≤ ε * (h - M) / 4900 := min_le_right _ _
  have hMx : M ≤ x := by linarith
  dsimp only
  rw [rate_tierC M h false 0 x hM0 hMx hx2]
  have hexp : 100 + (x - M) / (h - M) * 4900 - 5000 = -((h - x) * 4900 / (h - M)) := by
    field_simp
    ring
  rw [hexp, abs_neg, abs_lt]
  have hkey : (h - x) * 4900 < ε * (h - M) := by
    have h49 : h - x < ε * (h - M) / 4900 := by linarith
    calc (h - x) * 4900 < ε * (h - M) / 4900 * 4900 :=
          mul_lt_mul_of_pos_right h49 (by norm_num)
      _ = ε * (h - M) := by field_simp
  constructor
  · have hge : 0 ≤ (h - x) * 4900 / (h - M) :=
      div_nonneg (mul_nonneg (by linarith) (by norm_num)) (le_of_lt hspan)
    linarith
  · exact (div_lt_iff₀ hspan).mpr (by linarith)

theorem rate_not_contAt_high (M h : ℚ) (hM0 : 0 < M) (hMh : M < h) :
    ¬ ContAt (fun r => calculateDailyRate r ⟨M, some h, false, 0⟩) h := by
  intro hc
  obtain ⟨δ, hδ, H⟩ := hc 1 one_pos
  set m := min δ (h - M) with hm
  have hm0 : 0 < m := lt_min hδ (by linarith)
  have hmδ : m ≤ δ := min_le_left _ _
  have hmh : m ≤ h - M := min_le_right _ _
  have hx := H (h - m / 2) (by rw [abs_lt]; constructor <;> linarith)
  dsimp only at hx
  have hfh : calculateDailyRate h ⟨M, some h, false, 0⟩ = 10000 :=
    rate_tierD M h false 0 h hM0 hMh le_rfl
  have hMx : M ≤ h - m / 2 := by linarith
  have hxh : h - m / 2 < h := by linarith
  rw [rate_tierC M h false 0 (h - m / 2) hM0 hMx hxh, hfh] at hx
  have hspan : 0 < h - M := by linarith
  have hratio : (h - m / 2 - M) / (h - M) ≤ 1 := by
    rw [div_le_one hspan]
    linarith
  have hfx : 100 + (h - m / 2 - M) / (h - M) * 4900 ≤ 5000 := by nlinarith
  rw [abs_lt] at hx
  linarith [hx.1]

/-- C1 (amended): for a validated configuration with `0 < M` and `H` set,
`calculateDailyRate` equals 1 at `r = 0`, 100 at `r = M`, 10000 for every
`r ≥ H`, and is continuous at `M`; at `H` the curve is *not* continuous and
does not take the claimed value 5000: the left-sided limit is 5000 but the
value is 10000.  When `H` is unset, the `r ≥ M` arm gives 10000 (there the
curve jumps at `M` rather than being continuous, which also needs `0 < M`
for the value-at-`M` clause). -/
theorem calculateDailyRate_curve (M h : ℚ)
    (hM0 : 0 < M) (hM1 : M ≤ 1) (hMh : M < h) (hh1 : h ≤ 1) :
    calculateDailyRate 0 ⟨M, some h, false, 0⟩ = 1 ∧
    calculateDailyRate M ⟨M, some h, false, 0⟩ = 100 ∧
    (∀ r, h ≤ r → calculateDailyRate r ⟨M, some h, false, 0⟩ = 10000) ∧
    ContAt (fun r => calculateDailyRate r ⟨M, some h, false, 0⟩) M ∧
    TendsToFromLeft (fun r => calculateDailyRate r ⟨M, some h, false, 0⟩) h 5000 ∧
    calculateDailyRate h ⟨M, some h, false, 0⟩ = 10000 ∧
    ¬ ContAt (fun r => calculateDailyRate r ⟨M, some h, false, 0⟩) h ∧
    (∀ M' r, 0 < M' → M' ≤ r → calculateDailyRate r ⟨M', none, false, 0⟩ = 10000) := by
  refine ⟨?_, rate_at_mid M h hM0 hMh, ?_, rate_contAt_mid M h hM0 hMh,
    rate_leftLim_high M h hM0 hMh, rate_tierD M h false 0 h hM0 hMh le_rfl,
    rate_not_contAt_high M h hM0 hMh, ?_⟩
  · unfold calculateDailyRate
    rw [if_pos le_rfl]
  · exact fun r hr => rate_tierD M h false 0 r hM0 hMh hr
  · intro M' r hM' hMr
    unfold calculateDailyRate
    rw [if_neg (not_le.mpr (lt_of_lt_of_le hM' hMr)), if_neg (not_lt.mpr hMr)]

/-- C1 witness: the amended curve theorem instantiated at the validated
configuration `M = 1/2`, `H = 9/10`. -/
theorem calculateDailyRate_curve_witness :
    calculateDailyRate 0 ⟨1/2, some (9/10), false, 0⟩ = 1 ∧
    calculateDailyRate (1/2) ⟨1/2, some (9/10), false, 0⟩ = 100 ∧
    (∀ r, (9:ℚ)/10 ≤ r → calculateDailyRate r ⟨1/2, some (9/10), false, 0⟩ = 10000) ∧
    ContAt (fun r => calculateDailyRate r ⟨1/2, some (9/10), false, 0⟩) (1/2) ∧
    TendsToFromLeft (fun r => calculateDailyRate r ⟨1/2, some (9/10), false, 0⟩)
      (9/10) 5000 ∧
    calculateDailyRate (9/10) ⟨1/2, some (9/10), false, 0⟩ = 10000 ∧
    ¬ ContAt (fun r => calculateDailyRate r ⟨1/2, some (9/10), false, 0⟩) (9/10) ∧
    (∀ M' r, 0 < M' → M' ≤ r → calculateDailyRate r ⟨M', none, false, 0⟩ = 10000) :=
  calculateDailyRate_curve (1/2) (9/10) (by norm_num) (by norm_num) (by norm_num)
    (by norm_num)

/-- C1 counterexample: at the validated configuration `M = 1/2`,
`H = 9/10`, the claim asserts `calculateDailyRate H = 5000` (and continuity
at `H`); the code returns 10000 at `r = H`. -/
theorem dailyRate_claim_counterexample :
    (0 ≤ (1:ℚ)/2 ∧ (1:ℚ)/2 ≤ 1 ∧ (1:ℚ)/2 < 9/10 ∧ (9:ℚ)/10 ≤ 1) ∧
    calculateDailyRate (9/10) ⟨1/2, some (9/10), false, 0⟩ = 10000 ∧
    (10000 : ℚ) ≠ 5000 := by
  refine ⟨by norm_num, ?_, by norm_num⟩
  norm_num [calculateDailyRate]

/-! ## Rank cache

Translated from the rank source file: `TimeRank`, `PubRank`, the cache map
with its refresh queue (a channel of capacity 100), `Rank` (the
non-blocking peek), `GetRank` (the blocking fetch; the oracle round-trip
`refreshBatch` is a parameter giving either the decoded trust scores and
the response timestamp or an error), `Update` and `updateAndClean`.
Observability counters are omitted.
-/

structure TimeRank where
  Timestamp : ℚ
  Rank : ℚ
deriving DecidableEq

structure PubRank where
  Pubkey : String
  Rank : ℚ
deriving DecidableEq

structure RankCacheState where
  ranks : String → Option TimeRank
  refresh : List String
  lastClean : ℚ

def emptyRankCache : RankCacheState :=
  { ranks := fun _ => none, refresh := [], lastClean := 0 }

def StaleThreshold : ℚ := 86400

def MaxRefreshInterval : ℚ := 604800

/-- The clamp applied by `Update` and `updateAndClean`. -/
def clampRank (r : ℚ) : ℚ := if r < 0 then 0 else if 1 < r then 1 else r

def writeRank (m : String → Option TimeRank) (ts : ℚ) (p : PubRank) :
    String → Option TimeRank :=
  fun k => if k = p.Pubkey then some ⟨ts, clampRank p.Rank⟩ else m k

/-- `Update` from the source: write every entry, clamped to [0,1]. -/
def Update (st : RankCacheState) (ts : ℚ) (entries : List PubRank) : RankCacheState :=
  { st with ranks := entries.foldl (fun m p => writeRank m ts p) st.ranks }

/-- `updateAndClean` from the source: write clamped entries, then evict
entries older than `MaxRefreshInterval` when at least half that interval
has passed since the previous eviction scan. -/
def updateAndClean (st : RankCacheState) (ts : ℚ) (entries : List PubRank) (now : ℚ) :
    RankCacheState :=
  let ranks1 := entries.foldl (fun m p => writeRank m ts p) st.ranks
  if now - st.lastClean < MaxRefreshInterval / 2 then
    { st with ranks := ranks1 }
  else
    { ranks := fun k =>
        match ranks1 k with
        | some tr => if MaxRefreshInterval < now - tr.Timestamp then none else some tr
        | none => none,
      refresh := st.refresh,
      lastClean := now }

/-- `tryEnqueue` from the source: non-blocking send on the capacity-100
refresh channel; dropped when full. -/
def tryEnqueue (st : RankCacheState) (k : String) : RankCacheState :=
  if st.refresh.length < 100 then { st with refresh := st.refresh ++ [k] } else st

/-- `Rank` from the source: non-blocking peek; enqueues on miss and on a
stale hit, returns the cached value whenever one exists. -/
def Rank (st : RankCacheState) (now : ℚ) (k : String) :
    (ℚ × Bool) × RankCacheState :=
  match st.ranks k with
  | none => ((0, false), tryEnqueue st k)
  | some tr =>
    ((tr.Rank, true),
      if StaleThreshold < now - tr.Timestamp then tryEnqueue st k else st)

/-- The refresh arm of `GetRank`: the single-flight closure plus the
post-refresh re-check.  On failure it caches `(0, now)` and surfaces the
error. -/
def getRankRefresh (st : RankCacheState) (now : ℚ) (k : String)
    (oracle : Except Unit (List PubRank × ℚ)) : Except Unit ℚ × RankCacheState :=
  match oracle with
  | Except.error e => (Except.error e, Update st now [⟨k, 0⟩])
  | Except.ok (entries, ts) =>
    let st1 := updateAndClean st ts entries now
    match st1.ranks k with
    | some tr => (Except.ok tr.Rank, st1)
    | none => (Except.ok 0, Update st1 now [⟨k, 0⟩])

/-- `GetRank` from the source: return a fresh cached value directly,
otherwise drive a refresh for this key alone. -/
def GetRank (st : RankCacheState) (now : ℚ) (k : String)
    (oracle : Except Unit (List PubRank × ℚ)) : Except Unit ℚ × RankCacheState :=
  match st.ranks k with
  | some tr =>
    if now - tr.Timestamp ≤ StaleThreshold then (Except.ok tr.Rank, st)
    else getRankRefresh st now k oracle
  | none => getRankRefresh st now k oracle

/-- Sequences of cache writes, for the cached-score range invariant. -/
inductive CacheOp where
  | update (ts : ℚ) (entries : List PubRank)
  | updateClean (ts : ℚ) (entries : List PubRank) (now : ℚ)

def runCacheOps (st : RankCacheState) : List CacheOp → RankCacheState
  | [] => st
  | CacheOp.update ts es :: rest => runCacheOps (Update st ts es) rest
  | CacheOp.updateClean ts es now :: rest => runCacheOps (updateAndClean st ts es now) rest

/-- The rank of the last entry of `entries` carrying pubkey `k`. -/
def lastScore (entries : List PubRank) (k : String) : Option ℚ :=
  match entries with
  | [] => none
  | p :: rest =>
    match lastScore rest k with
    | some v => some v
    | none => if p.Pubkey = k then some p.Rank else none

theorem clampRank_range (r : ℚ) : 0 ≤ clampRank r ∧ clampRank r ≤ 1 := by
  unfold clampRank
  split_ifs <;> constructor <;> linarith

theorem foldl_writeRank_eq (entries : List PubRank) (m : String → Option TimeRank)
    (ts : ℚ) (k : String) :
    entries.foldl (fun m p => writeRank m ts p) m k =
      (match lastScore entries k with
       | some v => some ⟨ts, clampRank v⟩
       | none => m k) := by
  induction entries generalizing m with
  | nil => rfl
  | cons p rest ih =>
    show rest.foldl (fun m p => writeRank m ts p) (writeRank m ts p) k = _
    rw [ih]
    cases hl : lastScore rest k with
    | some v => simp [lastScore, hl]
    | none =>
      by_cases hpk : p.Pubkey = k
      · simp [lastScore, hl, hpk, writeRank]
      · have hkp : ¬ (k = p.Pubkey) := fun hh => hpk hh.symm
        simp [lastScore, hl, hpk, writeRank, hkp]

theorem update_ranks_at (st : RankCacheState) (ts : ℚ) (entries : List PubRank)
    (k : String) :
    (Update st ts entries).ranks k =
      (match lastScore entries k with
       | some v => some ⟨ts, clampRank v⟩
       | none => st.ranks k) :=
  foldl_writeRank_eq entries st.ranks ts k

/-- Every entry of the cache is in [0,1] after an `Update`, given the same
for the starting state. -/
theorem update_preserves_range (st : RankCacheState) (ts : ℚ) (entries : List PubRank)
    (hst : ∀ k tr, st.ranks k = some tr → 0 ≤ tr.Rank ∧ tr.Rank ≤ 1) :
    ∀ k tr, (Update st ts entries).ranks k = some tr → 0 ≤ tr.Rank ∧ tr.Rank ≤ 1 := by
  intro k tr h
  rw [update_ranks_at] at h
  cases hl : lastScore entries k with
  | some v =>
    rw [hl] at h
    injection h with h
    subst h
    exact clampRank_range v
  | none =>
    rw [hl] at h
    exact hst k tr h

theorem updateAndClean_preserves_range (st : RankCacheState) (ts : ℚ)
    (entries : List PubRank) (now : ℚ)
    (hst : ∀ k tr, st.ranks k = some tr → 0 ≤ tr.Rank ∧ tr.Rank ≤ 1) :
    ∀ k tr, (updateAndClean st ts entries now).ranks k = some tr →
      0 ≤ tr.Rank ∧ tr.Rank ≤ 1 := by
  intro k tr h
  have hbase := update_preserves_range st ts entries hst k tr
  unfold updateAndClean at h
  dsimp only at h
  split at h
  · exact hbase h
  · dsimp only at h
    cases hr : entries.foldl (fun m p => writeRank m ts p) st.ranks k with
    | none => rw [hr] at h; exact absurd h (by simp)
    | some tr2 =>
      rw [hr] at h
      dsimp only at h
      split at h
      · exact absurd h (by simp)
      · injection h with h
        subst h
        exact hbase hr

/-- C8: `Update ts entries` followed by `Rank k` for any `k` written by
`entries` returns `found = true` and exactly the stored (last-written)
score clamped to [0,1] — below 0 stored as 0, above 1 stored as 1, values
inside the range stored verbatim — and every cached score stays in [0,1]
along any sequence of `Update` / `updateAndClean` calls. -/
theorem update_then_rank_clamped (st : RankCacheState) (ts : ℚ)
    (entries : List PubRank) (k : String) (v : ℚ) (now : ℚ)
    (hv : lastScore entries k = some v) :
    (Rank (Update st ts entries) now k).1 = (clampRank v, true) ∧
    (v < 0 → clampRank v = 0) ∧
    (1 < v → clampRank v = 1) ∧
    (0 ≤ v → v ≤ 1 → clampRank v = v) ∧
    0 ≤ clampRank v ∧ clampRank v ≤ 1 ∧
    (∀ ops st0,
      (∀ k2 tr, st0.ranks k2 = some tr → 0 ≤ tr.Rank ∧ tr.Rank ≤ 1) →
      ∀ k2 tr, (runCacheOps st0 ops).ranks k2 = some tr →
        0 ≤ tr.Rank ∧ tr.Rank ≤ 1) := by
  have hat : (Update st ts entries).ranks k = some ⟨ts, clampRank v⟩ := by
    rw [update_ranks_at, hv]
  refine ⟨?_, ?_, ?_, ?_, (clampRank_range v).1, (clampRank_range v).2, ?_⟩
  · unfold Rank
    rw [hat]
  · intro hlt
    unfold clampRank
    rw [if_pos hlt]
  · intro hgt
    unfold clampRank
    rw [if_neg (by linarith), if_pos hgt]
  · intro h0 h1
    unfold clampRank
    rw [if_neg (by linarith), if_neg (by linarith)]
  · intro ops
    induction ops with
    | nil => intro st0 hst0; exact hst0
    | cons op rest ih =>
      intro st0 hst0
      cases op with
      | update ts2 es2 =>
        exact ih (Update st0 ts2 es2) (update_preserves_range st0 ts2 es2 hst0)
      | updateClean ts2 es2 now2 =>
        exact ih (updateAndClean st0 ts2 es2 now2)
          (updateAndClean_preserves_range st0 ts2 es2 now2 hst0)

/-- C8 witness: storing rank 2 for key "a" yields `Rank = (1, true)`
(clamped from 2), and the range invariant holds from the empty cache. -/
theorem update_then_rank_clamped_witness :
    (Rank (Update emptyRankCache 0 [⟨"a", 2⟩]) 0 "a").1 = (clampRank 2, true) ∧
    ((2:ℚ) < 0 → clampRank 2 = 0) ∧
    ((1:ℚ) < 2 → clampRank 2 = 1) ∧
    ((0:ℚ) ≤ 2 → (2:ℚ) ≤ 1 → clampRank 2 = 2) ∧
    0 ≤ clampRank 2 ∧ clampRank 2 ≤ 1 ∧
    (∀ ops st0,
      (∀ k2 tr, st0.ranks k2 = some tr → 0 ≤ tr.Rank ∧ tr.Rank ≤ 1) →
      ∀ k2 tr, (runCacheOps st0 ops).ranks k2 = some tr →
        0 ≤ tr.Rank ∧ tr.Rank ≤ 1) :=
  update_then_rank_clamped emptyRankCache 0 [⟨"a", 2⟩] "a" 2 0 (by
    show lastScore [⟨"a", 2⟩] "a" = some 2
    simp [lastScore])

/-- C7: a `GetRank` that misses (or hits only a stale entry) and whose
oracle round-trip fails returns the error and caches `(score 0, now)` for
the key; any `Rank` before `StaleThreshold` has elapsed then returns
`(0, true)` and leaves the state (in particular the refresh queue)
untouched. -/
theorem getRank_failure_caches_zero (st : RankCacheState) (now : ℚ) (k : String)
    (u : Unit)
    (hfresh : ∀ tr, st.ranks k = some tr → StaleThreshold < now - tr.Timestamp) :
    (GetRank st now k (Except.error u)).1 = Except.error u ∧
    ((GetRank st now k (Except.error u)).2).ranks k = some ⟨now, 0⟩ ∧
    (∀ now2 : ℚ, now2 - now < StaleThreshold →
      (Rank ((GetRank st now k (Except.error u)).2) now2 k).1 = (0, true) ∧
      (Rank ((GetRank st now k (Except.error u)).2) now2 k).2 =
        (GetRank st now k (Except.error u)).2) := by
  have hclamp0 : clampRank 0 = 0 := by norm_num [clampRank]
  have hrefresh : GetRank st now k (Except.error u) =
      (Except.error u, Update st now [⟨k, 0⟩]) := by
    unfold GetRank
    cases hc : st.ranks k with
    | none => rfl
    | some tr =>
      dsimp only
      rw [if_neg (not_le.mpr (hfresh tr hc))]
      rfl
  have hat : (Update st now [⟨k, 0⟩]).ranks k = some ⟨now, 0⟩ := by
    rw [update_ranks_at]
    show (match lastScore [⟨k, 0⟩] k with
          | some v => some ⟨now, clampRank v⟩
          | none => st.ranks k) = some ⟨now, 0⟩
    simp [lastScore, hclamp0]
  rw [hrefresh]
  refine ⟨rfl, hat, ?_⟩
  intro now2 hlt
  unfold Rank
  rw [hat]
  dsimp only
  rw [if_neg (show ¬ StaleThreshold < now2 - now by linarith)]
  exact ⟨rfl, rfl⟩

/-- C7 witness: the failure path applied to the empty cache at `now = 5`;
the follow-up peek at `now2 = 6` returns `(0, true)` without enqueueing. -/
theorem getRank_failure_caches_zero_witness :
    (GetRank emptyRankCache 5 "a" (Except.error ())).1 = Except.error () ∧
    ((GetRank emptyRankCache 5 "a" (Except.error ())).2).ranks "a" = some ⟨5, 0⟩ ∧
    (∀ now2 : ℚ, now2 - 5 < StaleThreshold →
      (Rank ((GetRank emptyRankCache 5 "a" (Except.error ())).2) now2 "a").1 = (0, true) ∧
      (Rank ((GetRank emptyRankCache 5 "a" (Except.error ())).2) now2 "a").2 =
        (GetRank emptyRankCache 5 "a" (Except.error ())).2) :=
  getRank_failure_caches_zero emptyRankCache 5 "a" () (fun tr h => nomatch h)

/-! ## URL detector

Translated from the URL source file.  Strings are modelled as `List Char`.
The candidate regular expression
`(?i)(?:https?://|www\.)[^\s]+|(?:[a-z0-9-]+\.)+[a-z]{2,}(?:/[^\s]*)?`
is embedded as a direct leftmost-first matcher specialised to that
pattern: `matchAlt1` handles the scheme/www alternative, `matchAlt2` the
bare-domain alternative, `findFrom` the scan for the earliest match.
-/

/-- The class `\s` of the Go regexp package. -/
def isSpaceChar (c : Char) : Bool :=
  c = ' ' || c = '\t' || c = '\n' || c = '\r' || c = '\x0c'

def notSpace (c : Char) : Bool := !(isSpaceChar c)

def isAsciiAlphaChar (c : Char) : Bool :=
  ('a' ≤ c && c ≤ 'z') || ('A' ≤ c && c ≤ 'Z')

def isDigitChar (c : Char) : Bool := '0' ≤ c && c ≤ '9'

/-- `isDomainChar` from the source (letters, digits, '-', '_'). -/
def isDomainChar (c : Char) : Bool :=
  isAsciiAlphaChar c || isDigitChar c || c = '-' || c = '_'

/-- The class `[a-z0-9-]` under the `(?i)` flag. -/
def isDomTokenChar (c : Char) : Bool :=
  isAsciiAlphaChar c || isDigitChar c || c = '-'

def runLen (p : Char → Bool) (l : List Char) : Nat := (l.takeWhile p).length

/-- Case-insensitive literal match (pattern given in lowercase); returns
the unmatched remainder. -/
def matchCI : List Char → List Char → Option (List Char)
  | [], l => some l
  | _ :: _, [] => none
  | p :: ps, c :: cs => if c.toLower = p then matchCI ps cs else none

/-- A literal followed by `[^\s]+` (greedy). -/
def matchLitRun (pat : List Char) (l : List Char) : Option Nat :=
  match matchCI pat l with
  | none => none
  | some rest =>
    let n := runLen notSpace rest
    if n = 0 then none else some (pat.length + n)

/-- The first alternative `(?:https?://|www\.)[^\s]+` in backtracking
order: `https://`, then `http://`, then `www.`. -/
def matchAlt1 (l : List Char) : Option Nat :=
  match matchLitRun "https://".data l with
  | some n => some n
  | none =>
    match matchLitRun "http://".data l with
    | some n => some n
    | none => matchLitRun "www.".data l

/-- One iteration of `(?:[a-z0-9-]+\.)+`: a maximal nonempty token run
followed by a literal dot; returns consumed length and remainder. -/
def groupIter (l : List Char) : Option (Nat × List Char) :=
  let n := runLen isDomTokenChar l
  if n = 0 then none
  else
    match l.drop n with
    | c :: rest => if c = '.' then some (n + 1, rest) else none
    | [] => none

/-- The tail `[a-z]{2,}(?:/[^\s]*)?` (both quantifiers greedy). -/
def tailMatch (l : List Char) : Option Nat :=
  let m := runLen isAsciiAlphaChar l
  if m < 2 then none
  else
    match l.drop m with
    | c :: rest => if c = '/' then some (m + 1 + runLen notSpace rest) else some m
    | [] => some m

theorem runLen_le (p : Char → Bool) (l : List Char) : runLen p l ≤ l.length := by
  unfold runLen
  induction l with
  | nil => simp
  | cons c rest ih =>
    rw [List.takeWhile_cons]
    split
    · simp
      omega
    · simp

theorem groupIter_bounds (l : List Char) (c : Nat) (l2 : List Char)
    (h : groupIter l = some (c, l2)) : 2 ≤ c ∧ c + l2.length = l.length := by
  unfold groupIter at h
  dsimp only at h
  split at h
  · exact nomatch h
  · rename_i hne
    have h1 : 1 ≤ runLen isDomTokenChar l := Nat.one_le_iff_ne_zero.mpr hne
    have h2 : runLen isDomTokenChar l ≤ l.length := runLen_le _ _
    cases hd : l.drop (runLen isDomTokenChar l) with
    | nil => rw [hd] at h; exact nomatch h
    | cons c2 rest =>
      rw [hd] at h
      dsimp only at h
      split at h
      · simp only [Option.some.injEq, Prod.mk.injEq] at h
        obtain ⟨h1, h2⟩ := h
        subst h2
        have hlen : (l.drop (runLen isDomTokenChar l)).length =
            l.length - runLen isDomTokenChar l := List.length_drop _ _
        rw [hd] at hlen
        simp only [List.length_cons] at hlen
        omega
      · exact nomatch h

/-- `(?:[a-z0-9-]+\.)*[a-z]{2,}(?:/[^\s]*)?` with greedy backtracking over
the number of remaining group iterations.  Structural recursion on a fuel
bound; `alt2Rest_unfold` below shows the fuel is irrelevant, so this is
the plain recurrence (each group iteration consumes at least two
characters, so `length + 1` steps always suffice). -/
def alt2RestF : Nat → List Char → Option Nat
  | 0, _ => none
  | fuel + 1, l =>
    match groupIter l with
    | some (c, l2) =>
      match alt2RestF fuel l2 with
      | some n => some (c + n)
      | none => tailMatch l
    | none => tailMatch l

def alt2Rest (l : List Char) : Option Nat := alt2RestF (l.length + 1) l

theorem alt2RestF_congr : ∀ f1 f2 : Nat, ∀ l : List Char,
    l.length + 1 ≤ f1 → l.length + 1 ≤ f2 → alt2RestF f1 l = alt2RestF f2 l := by
  intro f1
  induction f1 with
  | zero => intro f2 l h1 h2; omega
  | succ a ih =>
    intro f2 l h1 h2
    cases f2 with
    | zero => omega
    | succ b =>
      show (match groupIter l with
            | some (c, l2) =>
              match alt2RestF a l2 with
              | some n => some (c + n)
              | none => tailMatch l
            | none => tailMatch l) =
          (match groupIter l with
            | some (c, l2) =>
              match alt2RestF b l2 with
              | some n => some (c + n)
              | none => tailMatch l
            | none => tailMatch l)
      cases hg : groupIter l with
      | none => rfl
      | some p =>
        obtain ⟨c, l2⟩ := p
        dsimp only
        have hb := groupIter_bounds l c l2 hg
        rw [ih b l2 (by omega) (by omega)]

theorem alt2Rest_unfold (l : List Char) :
    alt2Rest l =
      (match groupIter l with
       | some (c, l2) =>
         match alt2Rest l2 with
         | some n => some (c + n)
         | none => tailMatch l
       | none => tailMatch l) := by
  show alt2RestF (l.length + 1) l = _
  rw [show alt2RestF (l.length + 1) l =
      (match groupIter l with
       | some (c, l2) =>
         match alt2RestF l.length l2 with
         | some n => some (c + n)
         | none => tailMatch l
       | none => tailMatch l) from rfl]
  cases hg : groupIter l with
  | none => rfl
  | some p =>
    obtain ⟨c, l2⟩ := p
    dsimp only
    have hb := groupIter_bounds l c l2 hg
    rw [alt2RestF_congr l.length (l2.length + 1) l2 (by omega) (by omega)]
    rfl

/-- The second alternative `(?:[a-z0-9-]+\.)+[a-z]{2,}(?:/[^\s]*)?`. -/
def matchAlt2 (l : List Char) : Option Nat :=
  match groupIter l with
  | some (c, l2) =>
    match alt2Rest l2 with
    | some n => some (c + n)
    | none => none
  | none => none

/-- Leftmost match of the candidate pattern in `l`, reported as absolute
`(start, stop)` with `l` standing at absolute position `i`. -/
def findFrom : List Char → Nat → Option (Nat × Nat)
  | [], _ => none
  | l@(_ :: rest), i =>
    match matchAlt1 l with
    | some n => some (i, i + n)
    | none =>
      match matchAlt2 l with
      | some n => some (i, i + n)
      | none => findFrom rest (i + 1)

theorem matchCI_length (pat : List Char) (l rest : List Char)
    (h : matchCI pat l = some rest) : pat.length + rest.length = l.length := by
  induction pat generalizing l with
  | nil =>
    unfold matchCI at h
    injection h with h
    subst h
    simp
  | cons p ps ih =>
    cases l with
    | nil => exact nomatch h
    | cons c cs =>
      unfold matchCI at h
      split at h
      · have := ih cs h
        simp only [List.length_cons]
        omega
      · exact nomatch h

theorem matchLitRun_bounds (pat l : List Char) (n : Nat)
    (h : matchLitRun pat l = some n) : 0 < n ∧ n ≤ l.length := by
  unfold matchLitRun at h
  cases hm : matchCI pat l with
  | none => rw [hm] at h; exact nomatch h
  | some rest =>
    rw [hm] at h
    dsimp only at h
    split at h
    · exact nomatch h
    · injection h with h
      subst h
      have hlen := matchCI_length pat l rest hm
      have hrun := runLen_le notSpace rest
      rename_i hne
      omega

theorem matchAlt1_bounds (l : List Char) (n : Nat)
    (h : matchAlt1 l = some n) : 0 < n ∧ n ≤ l.length := by
  unfold matchAlt1 at h
  cases h1 : matchLitRun "https://".data l with
  | some m =>
    rw [h1] at h
    injection h with h
    subst h
    exact matchLitRun_bounds _ _ _ h1
  | none =>
    rw [h1] at h
    cases h2 : matchLitRun "http://".data l with
    | some m =>
      rw [h2] at h
      injection h with h
      subst h
      exact matchLitRun_bounds _ _ _ h2
    | none =>
      rw [h2] at h
      exact matchLitRun_bounds _ _ _ h

theorem tailMatch_bounds (l : List Char) (n : Nat)
    (h : tailMatch l = some n) : 0 < n ∧ n ≤ l.length := by
  unfold tailMatch at h
  dsimp only at h
  split at h
  · exact nomatch h
  · rename_i hge
    have hm : runLen isAsciiAlphaChar l ≤ l.length := runLen_le _ _
    cases hd : l.drop (runLen isAsciiAlphaChar l) with
    | nil =>
      rw [hd] at h
      injection h with h
      subst h
      omega
    | cons c rest =>
      rw [hd] at h
      dsimp only at h
      have hlen : (l.drop (runLen isAsciiAlphaChar l)).length =
          l.length - runLen isAsciiAlphaChar l := List.length_drop _ _
      rw [hd] at hlen
      simp only [List.length_cons] at hlen
      have hrun := runLen_le notSpace rest
      split at h <;> injection h with h <;> subst h <;> omega

theorem alt2RestF_bounds : ∀ fuel : Nat, ∀ l : List Char, ∀ n,
    alt2RestF fuel l = some n → 0 < n ∧ n ≤ l.length := by
  intro fuel
  induction fuel with
  | zero => intro l n h; exact nomatch h
  | succ a ih =>
    intro l n h
    show 0 < n ∧ n ≤ l.length
    rw [show alt2RestF (a + 1) l =
        (match groupIter l with
         | some (c, l2) =>
           match alt2RestF a l2 with
           | some n => some (c + n)
           | none => tailMatch l
         | none => tailMatch l) from rfl] at h
    cases hg : groupIter l with
    | none =>
      rw [hg] at h
      exact tailMatch_bounds l n h
    | some p =>
      obtain ⟨c, l2⟩ := p
      rw [hg] at h
      dsimp only at h
      cases hrest : alt2RestF a l2 with
      | none =>
        rw [hrest] at h
        exact tailMatch_bounds l n h
      | some m =>
        rw [hrest] at h
        injection h with h
        subst h
        have hb := groupIter_bounds l c l2 hg
        have hr := ih l2 m hrest
        omega

theorem alt2Rest_bounds (l : List Char) :
    ∀ n, alt2Rest l = some n → 0 < n ∧ n ≤ l.length :=
  alt2RestF_bounds (l.length + 1) l

theorem matchAlt2_bounds (l : List Char) (n : Nat)
    (h : matchAlt2 l = some n) : 0 < n ∧ n ≤ l.length := by
  unfold matchAlt2 at h
  cases hg : groupIter l with
  | none => rw [hg] at h; exact nomatch h
  | some p =>
    obtain ⟨c, l2⟩ := p
    rw [hg] at h
    dsimp only at h
    cases hrest : alt2Rest l2 with
    | none => rw [hrest] at h; exact nomatch h
    | some m =>
      rw [hrest] at h
      injection h with h
      subst h
      have hb := groupIter_bounds l c l2 hg
      have hr := alt2Rest_bounds l2 m hrest
      omega

theorem findFrom_bounds (l : List Char) (i : Nat) (s e : Nat)
    (h : findFrom l i = some (s, e)) : i ≤ s ∧ s < e ∧ e ≤ i + l.length := by
  induction l generalizing i with
  | nil => exact nomatch h
  | cons c rest ih =>
    unfold findFrom at h
    cases h1 : matchAlt1 (c :: rest) with
    | some n =>
      rw [h1] at h
      simp only [Option.some.injEq, Prod.mk.injEq] at h
      obtain ⟨hs, he⟩ := h
      subst hs
      subst he
      have hb := matchAlt1_bounds (c :: rest) n h1
      simp only [List.length_cons] at hb
      constructor
      · omega
      constructor
      · omega
      · simp only [List.length_cons]
        omega
    | none =>
      rw [h1] at h
      cases h2 : matchAlt2 (c :: rest) with
      | some n =>
        rw [h2] at h
        simp only [Option.some.injEq, Prod.mk.injEq] at h
        obtain ⟨hs, he⟩ := h
        subst hs
        subst he
        have hb := matchAlt2_bounds (c :: rest) n h2
        simp only [List.length_cons] at hb
        refine ⟨le_refl _, by omega, ?_⟩
        simp only [List.length_cons]
        omega
      | none =>
        rw [h2] at h
        have hb := ih (i + 1) h
        refine ⟨by omega, hb.2.1, ?_⟩
        simp only [List.length_cons]
        omega

/-! ### Candidate post-processing and host validation -/

/-- The cutset `()[]{}<>,."'`\x60` of the trim in the source (quote,
apostrophe and backtick written by code point). -/
def trimCutset : List Char :=
  ['(', ')', '[', ']', Char.ofNat 123, Char.ofNat 125, '<', '>', ',', '.',
    Char.ofNat 34, Char.ofNat 39, Char.ofNat 96]

/-- `strings.Trim`: strip cutset characters from both ends. -/
def strTrim (l : List Char) (cutset : List Char) : List Char :=
  ((l.dropWhile (fun c => cutset.contains c)).reverse.dropWhile
    (fun c => cutset.contains c)).reverse

/-- Strip an `http://` or `https://` scheme (case-insensitive), in the
source's order of checks. -/
def stripScheme (l : List Char) : List Char :=
  match matchCI "http://".data l with
  | some rest => rest
  | none =>
    match matchCI "https://".data l with
    | some rest => rest
    | none => l

/-- Cut at the first `/`, `?` or `#` (the `strings.IndexAny` cut). -/
def cutPath (l : List Char) : List Char :=
  l.takeWhile (fun c => !(c = '/' || c = '?' || c = Char.ofNat 35))

/-- Keep only the part after the last `@` (userinfo strip); the whole
string when there is no `@`. -/
def afterLastAt (l : List Char) : List Char :=
  (l.reverse.takeWhile (fun c => !(c = '@'))).reverse

/-- `net.SplitHostPort`, returning the host on success: the part before
the last colon, requiring exactly one colon outside brackets and balanced
brackets for a bracketed (IPv6) host. -/
def splitHostPort (l : List Char) : Option (List Char) :=
  match l with
  | '[' :: rest =>
    let inside := rest.takeWhile (fun c => !(c = ']'))
    match rest.drop inside.length with
    | ']' :: afterBr =>
      match afterBr with
      | ':' :: port =>
        if port.contains ':' || rest.contains '[' || afterBr.contains ']' then none
        else some inside
      | _ => none
    | _ => none
  | _ =>
    let revTail := l.reverse.takeWhile (fun c => !(c = ':'))
    if revTail.length = l.length then none
    else
      let host := l.take (l.length - revTail.length - 1)
      if host.contains ':' || l.contains '[' || l.contains ']' then none
      else some host

/-- The port strip of the source: `SplitHostPort` when it succeeds, else
the best-effort split on the last colon when everything after it is a
nonempty run of digits. -/
def hostAfterPortStrip (s : List Char) : List Char :=
  match splitHostPort s with
  | some h => h
  | none =>
    let revTail := s.reverse.takeWhile (fun c => !(c = ':'))
    if revTail.length = s.length then s
    else
      let port := revTail.reverse
      if port.isEmpty then s
      else if port.all isDigitChar then s.take (s.length - port.length - 1) else s

/-! ### `net.ParseIP` and address classification.

Addresses are 16 bytes; IPv4 addresses are held in IPv4-mapped form, as
the Go net package does. -/

abbrev IPBytes := List Nat

/-- One dotted-quad field: 1-3 digits, value at most 255, no leading
zeros. -/
def parseDecOctet (l : List Char) : Option Nat :=
  if l.isEmpty then none
  else if !(l.all isDigitChar) then none
  else if 3 < l.length then none
  else if 1 < l.length && l.headD ' ' = '0' then none
  else
    let v := l.foldl (fun a c => a * 10 + (c.toNat - 48)) 0
    if 255 < v then none else some v

/-- Raw dotted-quad parse giving 4 bytes. -/
def parseIPv4Raw (l : List Char) : Option (List Nat) :=
  match (l.splitOn '.').mapM parseDecOctet with
  | some [a, b, c, d] => some [a, b, c, d]
  | _ => none

def v4mapped (bs : List Nat) : IPBytes :=
  [0, 0, 0, 0, 0, 0, 0, 0, 0, 0, 255, 255] ++ bs

def parseIPv4 (l : List Char) : Option IPBytes :=
  (parseIPv4Raw l).map v4mapped

def hexVal (c : Char) : Option Nat :=
  if isDigitChar c then some (c.toNat - 48)
  else if 'a' ≤ c && c ≤ 'f' then some (c.toNat - 87)
  else if 'A' ≤ c && c ≤ 'F' then some (c.toNat - 55)
  else none

/-- One IPv6 group: 1-4 hex digits. -/
def parseHexGroup (l : List Char) : Option Nat :=
  if l.isEmpty || 4 < l.length then none
  else
    l.foldl
      (fun acc c =>
        match acc, hexVal c with
        | some a, some v => some (a * 16 + v)
        | _, _ => none)
      (some 0)

/-- Split at the first `::`, when present. -/
def splitDoubleColon : List Char → Option (List Char × List Char)
  | [] => none
  | ':' :: ':' :: rest => some ([], rest)
  | c :: rest =>
    match splitDoubleColon rest with
    | some (l, r) => some (c :: l, r)
    | none => none

/-- Colon-separated IPv6 groups to bytes; a dotted-quad tail is accepted
only as the final token and only when `allowV4` is set. -/
def parseV6Toks : List (List Char) → Bool → Option (List Nat)
  | [], _ => some []
  | [t], allowV4 =>
    if allowV4 && t.contains '.' then
      match parseIPv4Raw t with
      | some bs => some bs
      | none => none
    else
      match parseHexGroup t with
      | some v => some [v / 256, v % 256]
      | none => none
  | t :: rest, allowV4 =>
    match parseHexGroup t with
    | some v =>
      match parseV6Toks rest allowV4 with
      | some bs => some ([v / 256, v % 256] ++ bs)
      | none => none
    | none => none

def parseV6Side (l : List Char) (allowV4 : Bool) : Option (List Nat) :=
  if l.isEmpty then some []
  else parseV6Toks (l.splitOn ':') allowV4

def parseIPv6 (l : List Char) : Option IPBytes :=
  match splitDoubleColon l with
  | some (left, right) =>
    match parseV6Side left false, parseV6Side right true with
    | some lb, some rb =>
      if lb.length + rb.length < 16 then
        some (lb ++ List.replicate (16 - lb.length - rb.length) 0 ++ rb)
      else none
    | _, _ => none
  | none =>
    match parseV6Side l true with
    | some bs => if bs.length = 16 then some bs else none
    | none => none

/-- `net.ParseIP`: dispatch on the first separator character. -/
def parseIP (l : List Char) : Option IPBytes :=
  match l.find? (fun c => c = '.' || c = ':') with
  | some c => if c = '.' then parseIPv4 l else parseIPv6 l
  | none => none

/-- `IP.To4` on the 16-byte form. -/
def ipTo4 (b : IPBytes) : Option (List Nat) :=
  match b with
  | [b0, b1, b2, b3, b4, b5, b6, b7, b8, b9, b10, b11, b12, b13, b14, b15] =>
    if b0 = 0 && b1 = 0 && b2 = 0 && b3 = 0 && b4 = 0 && b5 = 0 && b6 = 0 &&
        b7 = 0 && b8 = 0 && b9 = 0 && b10 = 255 && b11 = 255 then
      some [b12, b13, b14, b15]
    else none
  | _ => none

def isLoopbackIP (b : IPBytes) : Bool :=
  match ipTo4 b with
  | some v4 => v4.headD 0 = 127
  | none => b = [0, 0, 0, 0, 0, 0, 0, 0, 0, 0, 0, 0, 0, 0, 0, 1]

def isPrivateIP (b : IPBytes) : Bool :=
  match ipTo4 b with
  | some v4 =>
    v4.headD 0 = 10 ||
    (v4.headD 0 = 172 && (v4.getD 1 0) &&& 240 = 16) ||
    (v4.headD 0 = 192 && v4.getD 1 0 = 168)
  | none => b.length = 16 && (b.headD 0) &&& 254 = 252

def isLinkLocalUnicastIP (b : IPBytes) : Bool :=
  match ipTo4 b with
  | some v4 => v4.headD 0 = 169 && v4.getD 1 0 = 254
  | none => b.length = 16 && b.headD 0 = 254 && (b.getD 1 0) &&& 192 = 128

def isLinkLocalMulticastIP (b : IPBytes) : Bool :=
  match ipTo4 b with
  | some v4 => v4.headD 0 = 224 && v4.getD 1 0 = 0 && v4.getD 2 0 = 0
  | none => b.length = 16 && b.headD 0 = 255 && (b.getD 1 0) &&& 15 = 2

def isUnspecifiedIP (b : IPBytes) : Bool :=
  (match ipTo4 b with
   | some v4 => v4 = [0, 0, 0, 0]
   | none => false) ||
  b = List.replicate 16 0

/-- `isAllowedURLCandidate` from the source: strip scheme, path, userinfo
and port, then validate the host. -/
def isAllowedURLCandidate (cand : List Char) : Bool :=
  let s0 := stripScheme cand
  let s1 := cutPath s0
  let s2 := afterLastAt s1
  let host := hostAfterPortStrip s2
  if host.isEmpty then false
  else
    let hostLower := host.map Char.toLower
    if hostLower = "localhost".data then false
    else if ".local".data.isSuffixOf hostLower then false
    else
      match parseIP host with
      | some ip =>
        !(isLoopbackIP ip || isPrivateIP ip || isLinkLocalUnicastIP ip ||
          isLinkLocalMulticastIP ip || isUnspecifiedIP ip)
      | none => hostLower.contains '.'

/-- The per-candidate body of the `ContainsURL` loop: the preceding-char
check, the trim, the underscore check, then the host validation. -/
def acceptCandidate (content : List Char) (s e : Nat) : Bool :=
  let prevOK :=
    if s = 0 then true
    else
      match content.drop (s - 1) with
      | c :: _ => !(c = '@' || isDomainChar c)
      | [] => true
  if !prevOK then false
  else
    let cand := strTrim ((content.drop s).take (e - s)) trimCutset
    if cand.isEmpty then false
    else if cand.contains '_' then false
    else isAllowedURLCandidate cand

/-- The search loop of `ContainsURL`: try each candidate in order,
resuming after the end of the previous match.  Structural recursion on a
fuel bound (every match ends strictly beyond the current offset, so
`length + 1 - off` steps always suffice); `urlScan_unfold` below shows
the fuel is irrelevant, leaving the plain loop recurrence. -/
def urlScanF : Nat → List Char → Nat → Bool
  | 0, _, _ => false
  | fuel + 1, content, off =>
    match findFrom (content.drop off) off with
    | none => false
    | some (s, e) =>
      if acceptCandidate content s e then true
      else urlScanF fuel content e

def urlScan (content : List Char) (off : Nat) : Bool :=
  urlScanF (content.length + 1 - off) content off

/-- `ContainsURL` from the source. -/
def ContainsURL (content : String) : Bool :=
  if content.data.isEmpty then false
  else urlScan content.data 0

/-- The sequence of candidates the loop inspects, fueled the same way. -/
def urlCandidatesF : Nat → List Char → Nat → List (Nat × Nat)
  | 0, _, _ => []
  | fuel + 1, content, off =>
    match findFrom (content.drop off) off with
    | none => []
    | some (s, e) => (s, e) :: urlCandidatesF fuel content e

def urlCandidates (content : List Char) (off : Nat) : List (Nat × Nat) :=
  urlCandidatesF (content.length + 1 - off) content off

theorem findFrom_drop_none (content : List Char) (off : Nat)
    (h : content.length < off) : findFrom (content.drop off) off = none := by
  have hd : content.drop off = [] := by
    have := List.length_drop off content
    have h0 : (content.drop off).length = 0 := by omega
    exact List.length_eq_zero.mp h0
  rw [hd]
  rfl

theorem urlScanF_congr : ∀ f1 f2 : Nat, ∀ content : List Char, ∀ off : Nat,
    content.length + 1 ≤ f1 + off → content.length + 1 ≤ f2 + off →
    urlScanF f1 content off = urlScanF f2 content off := by
  intro f1
  induction f1 with
  | zero =>
    intro f2 content off h1 h2
    have hn : findFrom (content.drop off) off = none :=
      findFrom_drop_none content off (by omega)
    cases f2 with
    | zero => rfl
    | succ b =>
      show urlScanF 0 content off =
        (match findFrom (content.drop off) off with
         | none => false
         | some (s, e) =>
           if acceptCandidate content s e then true
           else urlScanF b content e)
      rw [hn]
      rfl
  | succ a ih =>
    intro f2 content off h1 h2
    cases f2 with
    | zero =>
      have hn : findFrom (content.drop off) off = none :=
        findFrom_drop_none content off (by omega)
      show (match findFrom (content.drop off) off with
            | none => false
            | some (s, e) =>
              if acceptCandidate content s e then true
              else urlScanF a content e) = urlScanF 0 content off
      rw [hn]
      rfl
    | succ b =>
      show (match findFrom (content.drop off) off with
            | none => false
            | some (s, e) =>
              if acceptCandidate content s e then true
              else urlScanF a content e) =
          (match findFrom (content.drop off) off with
            | none => false
            | some (s, e) =>
              if acceptCandidate content s e then true
              else urlScanF b content e)
      cases hf : findFrom (content.drop off) off with
      | none => rfl
      | some p =>
        obtain ⟨se, e⟩ := p
        have hb := findFrom_bounds (content.drop off) off se e hf
        rw [List.length_drop] at hb
        dsimp only
        rw [ih b content e (by omega) (by omega)]

theorem urlScan_unfold (content : List Char) (off : Nat) :
    urlScan content off =
      (match findFrom (content.drop off) off with
       | none => false
       | some (s, e) =>
         if acceptCandidate content s e then true
         else urlScan content e) := by
  show urlScanF (content.length + 1 - off) content off = _
  by_cases hoff : content.length + 1 ≤ off
  · have hn : findFrom (content.drop off) off = none :=
      findFrom_drop_none content off (by omega)
    rw [urlScanF_congr (content.length + 1 - off) 1 content off (by omega) (by omega)]
    show (match findFrom (content.drop off) off with
          | none => false
          | some (s, e) =>
            if acceptCandidate content s e then true
            else urlScanF 0 content e) = _
    rw [hn]
  · have hpos : content.length + 1 - off = (content.length - off) + 1 := by omega
    rw [hpos]
    show (match findFrom (content.drop off) off with
          | none => false
          | some (s, e) =>
            if acceptCandidate content s e then true
            else urlScanF (content.length - off) content e) = _
    cases hf : findFrom (content.drop off) off with
    | none => rfl
    | some p =>
      obtain ⟨se, e⟩ := p
      have hb := findFrom_bounds (content.drop off) off se e hf
      rw [List.length_drop] at hb
      dsimp only
      rw [urlScanF_congr (content.length - off) (content.length + 1 - e) content e
        (by omega) (by omega)]
      rfl

theorem urlCandidatesF_congr : ∀ f1 f2 : Nat, ∀ content : List Char, ∀ off : Nat,
    content.length + 1 ≤ f1 + off → content.length + 1 ≤ f2 + off →
    urlCandidatesF f1 content off = urlCandidatesF f2 content off := by
  intro f1
  induction f1 with
  | zero =>
    intro f2 content off h1 h2
    have hn : findFrom (content.drop off) off = none :=
      findFrom_drop_none content off (by omega)
    cases f2 with
    | zero => rfl
    | succ b =>
      show urlCandidatesF 0 content off =
        (match findFrom (content.drop off) off with
         | none => []
         | some (s, e) => (s, e) :: urlCandidatesF b content e)
      rw [hn]
      rfl
  | succ a ih =>
    intro f2 content off h1 h2
    cases f2 with
    | zero =>
      have hn : findFrom (content.drop off) off = none :=
        findFrom_drop_none content off (by omega)
      show (match findFrom (content.drop off) off with
            | none => []
            | some (s, e) => (s, e) :: urlCandidatesF a content e) =
          urlCandidatesF 0 content off
      rw [hn]
      rfl
    | succ b =>
      show (match findFrom (content.drop off) off with
            | none => []
            | some (s, e) => (s, e) :: urlCandidatesF a content e) =
          (match findFrom (content.drop off) off with
            | none => []
            | some (s, e) => (s, e) :: urlCandidatesF b content e)
      cases hf : findFrom (content.drop off) off with
      | none => rfl
      | some p =>
        obtain ⟨se, e⟩ := p
        have hb := findFrom_bounds (content.drop off) off se e hf
        rw [List.length_drop] at hb
        dsimp only
        rw [ih b content e (by omega) (by omega)]

theorem urlCandidates_unfold (content : List Char) (off : Nat) :
    urlCandidates content off =
      (match findFrom (content.drop off) off with
       | none => []
       | some (s, e) => (s, e) :: urlCandidates content e) := by
  show urlCandidatesF (content.length + 1 - off) content off = _
  by_cases hoff : content.length + 1 ≤ off
  · have hn : findFrom (content.drop off) off = none :=
      findFrom_drop_none content off (by omega)
    rw [urlCandidatesF_congr (content.length + 1 - off) 1 content off (by omega) (by omega)]
    show (match findFrom (content.drop off) off with
          | none => []
          | some (s, e) => (s, e) :: urlCandidatesF 0 content e) = _
    rw [hn]
  · have hpos : content.length + 1 - off = (content.length - off) + 1 := by omega
    rw [hpos]
    show (match findFrom (content.drop off) off with
          | none => []
          | some (s, e) => (s, e) :: urlCandidatesF (content.length - off) content e) = _
    cases hf : findFrom (content.drop off) off with
    | none => rfl
    | some p =>
      obtain ⟨se, e⟩ := p
      have hb := findFrom_bounds (content.drop off) off se e hf
      rw [List.length_drop] at hb
      dsimp only
      rw [urlCandidatesF_congr (content.length - off) (content.length + 1 - e) content e
        (by omega) (by omega)]
      rfl

theorem urlScanF_iff (fuel : Nat) : ∀ content : List Char, ∀ off : Nat,
    (urlScanF fuel content off = true ↔
      ∃ p ∈ urlCandidatesF fuel content off,
        acceptCandidate content p.1 p.2 = true) := by
  induction fuel with
  | zero =>
    intro content off
    simp [urlScanF, urlCandidatesF]
  | succ a ih =>
    intro content off
    simp only [urlScanF, urlCandidatesF]
    cases hf : findFrom (content.drop off) off with
    | none => simp
    | some q =>
      obtain ⟨s, e⟩ := q
      dsimp only
      by_cases hacc : acceptCandidate content s e = true
      · rw [if_pos hacc]
        constructor
        · intro _
          exact ⟨(s, e), List.mem_cons_self _ _, hacc⟩
        · intro _; rfl
      · rw [if_neg hacc]
        rw [ih content e]
        constructor
        · intro ⟨p, hp, hap⟩
          exact ⟨p, List.mem_cons_of_mem _ hp, hap⟩
        · intro ⟨p, hp, hap⟩
          rcases List.mem_cons.mp hp with hph | hpt
          · subst hph; exact absurd hap hacc
          · exact ⟨p, hpt, hap⟩

/-- C9: `ContainsURL` returns true iff some candidate produced by the
leftmost-match scan is accepted by the per-candidate checks (preceding
`@`/domain character, trim, underscore, host validation rejecting
`localhost`, `*.local`, loopback/private/link-local/unspecified addresses
and dotless hosts), together with the claim's concrete rejections:
content whose candidates have hosts `localhost`, `127.0.0.1`, `10.x`,
`192.168.x` or `*.local` yields false, a host with `_` yields false, and
a public host yields true. -/
theorem ContainsURL_iff_accepted :
    (∀ content : String,
      (ContainsURL content = true ↔
        ∃ p ∈ urlCandidates content.data 0,
          acceptCandidate content.data p.1 p.2 = true)) ∧
    ContainsURL "visit https://example.com now" = true ∧
    ContainsURL
      "http://localhost http://127.0.0.1 http://10.0.0.1 http://192.168.1.1 http://foo.local"
      = false ∧
    ContainsURL "www.foo_bar.com" = false := by
  refine ⟨?_, by decide, by decide, by decide⟩
  intro content
  show ((if content.data.isEmpty then false else urlScan content.data 0) = true ↔ _)
  cases hc : content.data with
  | nil =>
    rw [urlCandidates_unfold]
    simp [findFrom]
  | cons c rest =>
    simp only [List.isEmpty_cons, Bool.false_eq_true, if_false]
    exact urlScanF_iff ((c :: rest).length + 1 - 0) (c :: rest) 0

/-! ## Admission pipeline

Translated from `handleEvent` and `lookupRank` in the main source file.
Events carry the fields the pipeline reads; the store `Save` is a success
result (store failures are out of the claims' scope); the oracle
round-trip inside `GetRank` is the `oracle` parameter. -/

structure Event where
  pubKey : String
  kind : ℤ
  createdAt : ℤ
  content : String

inductive HandleResult where
  | saved
  | kindNotAllowed
  | urlNotAllowed
  | invalidTimestamp
  | rateLimited
deriving DecidableEq

def timestampSanityWindow : ℚ := 86400

def backfillAgeThreshold : ℚ := 86400

def secondsPerDay : ℚ := 86400

/-- `lookupRank` from the source: peek the cache; on a miss, gate the
refresh by the IP-group bucket and fall back to rank 0 on failure. -/
def lookupRank (e : Event) (ipGroup : String) (cfg : Config)
    (cache : RankCacheState) (lim : LimiterState) (now : ℚ)
    (oracle : Except Unit (List PubRank × ℚ)) :
    ℚ × RankCacheState × LimiterState :=
  match Rank cache now e.pubKey with
  | ((r, true), cache1) => (r, cache1, lim)
  | ((_, false), cache1) =>
    let p := Allow lim ("rank-queue:" ++ ipGroup) cfg.RankQueueIPDailyLimit
      (cfg.RankQueueIPDailyLimit / secondsPerDay) now
    if p.1 then
      match GetRank cache1 now e.pubKey oracle with
      | (Except.ok r, cache2) => (r, cache2, p.2)
      | (Except.error _, cache2) => (0, tryEnqueue cache2 e.pubKey, p.2)
    else (0, cache1, p.2)

/-- Step 6 of `handleEvent`: the per-pubkey bucket with the rate derived
from the rank, the capacity floored at 1, then save or reject. -/
def handleEventBucket (e : Event) (cfg : Config) (rank : ℚ)
    (cache1 : RankCacheState) (lim1 : LimiterState) (now : ℚ) :
    HandleResult × RankCacheState × LimiterState :=
  let dailyRate := calculateDailyRate rank cfg
  let refillRate := dailyRate / secondsPerDay
  let capacity0 := dailyRate / 24
  let capacity := if capacity0 < 1 then 1 else capacity0
  let p := Allow lim1 e.pubKey capacity refillRate now
  if p.1 then (HandleResult.saved, cache1, p.2)
  else (HandleResult.rateLimited, cache1, p.2)

/-- `handleEvent` from the source: rank lookup, kind gate, URL gate,
timestamp sanity, backfill exemption, token bucket, save. -/
def handleEvent (e : Event) (cfg : Config) (cache : RankCacheState)
    (lim : LimiterState) (now : ℚ) (ipGroup : String)
    (oracle : Except Unit (List PubRank × ℚ)) :
    HandleResult × RankCacheState × LimiterState :=
  let lr := lookupRank e ipGroup cfg cache lim now oracle
  let rank := lr.1
  let cache1 := lr.2.1
  let lim1 := lr.2.2
  if rank < cfg.MidThreshold ∧ e.kind ≠ 1 then
    (HandleResult.kindNotAllowed, cache1, lim1)
  else if cfg.URLPolicyEnabled = true ∧ rank < cfg.MidThreshold ∧ e.kind = 1 ∧
      ContainsURL e.content = true then
    (HandleResult.urlNotAllowed, cache1, lim1)
  else if timestampSanityWindow < (e.createdAt : ℚ) - now then
    (HandleResult.invalidTimestamp, cache1, lim1)
  else
    match cfg.HighThreshold with
    | some H =>
      if H ≤ rank ∧ backfillAgeThreshold < now - (e.createdAt : ℚ) then
        (HandleResult.saved, cache1, lim1)
      else handleEventBucket e cfg rank cache1 lim1 now
    | none => handleEventBucket e cfg rank cache1 lim1 now

/-- `lookupRank` touches no limiter key other than the rank-queue key of
the caller's IP group. -/
theorem lookupRank_lim_other (e : Event) (ipGroup : String) (cfg : Config)
    (cache : RankCacheState) (lim : LimiterState) (now : ℚ)
    (oracle : Except Unit (List PubRank × ℚ)) (k : String)
    (hk : k ≠ "rank-queue:" ++ ipGroup) :
    (lookupRank e ipGroup cfg cache lim now oracle).2.2 k = lim k := by
  unfold lookupRank
  cases hR : Rank cache now e.pubKey with
  | mk val cache1 =>
    obtain ⟨r, b⟩ := val
    cases b with
    | true => rfl
    | false =>
      dsimp only
      have hother :
          (Allow lim ("rank-queue:" ++ ipGroup) cfg.RankQueueIPDailyLimit
            (cfg.RankQueueIPDailyLimit / secondsPerDay) now).2 k = lim k :=
        Consume_other lim ("rank-queue:" ++ ipGroup) k 1 cfg.RankQueueIPDailyLimit
          (cfg.RankQueueIPDailyLimit / secondsPerDay) now hk
      split
      · cases hG : GetRank cache1 now e.pubKey oracle with
        | mk res cache2 =>
          cases res with
          | ok r2 => exact hother
          | error u => exact hother
      · exact hother

/-- C4: an event whose resolved rank is below `MidThreshold` and whose
kind differs from 1 is rejected `KindNotAllowed`, and the bucket keyed by
its pubkey is neither created nor modified (events carry hex pubkeys, so
the pubkey never coincides with the `rank-queue:` key the lookup may
touch). -/
theorem kind_gate_rejects (e : Event) (cfg : Config) (cache : RankCacheState)
    (lim : LimiterState) (now : ℚ) (ipGroup : String)
    (oracle : Except Unit (List PubRank × ℚ))
    (hrank : (lookupRank e ipGroup cfg cache lim now oracle).1 < cfg.MidThreshold)
    (hkind : e.kind ≠ 1)
    (hkey : e.pubKey ≠ "rank-queue:" ++ ipGroup) :
    (handleEvent e cfg cache lim now ipGroup oracle).1 = HandleResult.kindNotAllowed ∧
    (handleEvent e cfg cache lim now ipGroup oracle).2.2 e.pubKey = lim e.pubKey := by
  unfold handleEvent
  rw [if_pos ⟨hrank, hkind⟩]
  exact ⟨rfl, lookupRank_lim_other e ipGroup cfg cache lim now oracle e.pubKey hkey⟩

/-- C5: once the kind gate and the URL gate pass, the event is rejected
`InvalidTimestamp` exactly when `createdAt - now > 24h`; an event exactly
24h in the future, or past-dated, is never rejected by this check. -/
theorem timestamp_gate_iff (e : Event) (cfg : Config) (cache : RankCacheState)
    (lim : LimiterState) (now : ℚ) (ipGroup : String)
    (oracle : Except Unit (List PubRank × ℚ))
    (hkind : ¬ ((lookupRank e ipGroup cfg cache lim now oracle).1 < cfg.MidThreshold ∧
      e.kind ≠ 1))
    (hurl : ¬ (cfg.URLPolicyEnabled = true ∧
      (lookupRank e ipGroup cfg cache lim now oracle).1 < cfg.MidThreshold ∧
      e.kind = 1 ∧ ContainsURL e.content = true)) :
    ((handleEvent e cfg cache lim now ipGroup oracle).1 = HandleResult.invalidTimestamp ↔
      timestampSanityWindow < (e.createdAt : ℚ) - now) := by
  unfold handleEvent
  rw [if_neg hkind, if_neg hurl]
  constructor
  · intro h
    by_contra hts
    rw [if_neg hts] at h
    cases hHT : cfg.HighThreshold with
    | some H =>
      rw [hHT] at h
      dsimp only at h
      split at h
      · exact nomatch h
      · unfold handleEventBucket at h
        dsimp only at h
        split at h <;> split at h <;> simp at h
    | none =>
      rw [hHT] at h
      unfold handleEventBucket at h
      dsimp only at h
      split at h <;> split at h <;> simp at h
  · intro hts
    rw [if_pos hts]

/-- C6: with `HighThreshold` configured (validated: above `MidThreshold`),
a resolved rank at or above it, and an event older than 24h, `handleEvent`
persists the event and the bucket keyed by its pubkey is untouched — no
token is consumed (backfill exemption). -/
theorem backfill_exemption (e : Event) (cfg : Config) (cache : RankCacheState)
    (lim : LimiterState) (now : ℚ) (ipGroup : String)
    (oracle : Except Unit (List PubRank × ℚ)) (H : ℚ)
    (hH : cfg.HighThreshold = some H)
    (hMH : cfg.MidThreshold < H)
    (hrank : H ≤ (lookupRank e ipGroup cfg cache lim now oracle).1)
    (hage : backfillAgeThreshold < now - (e.createdAt : ℚ))
    (hkey : e.pubKey ≠ "rank-queue:" ++ ipGroup) :
    (handleEvent e cfg cache lim now ipGroup oracle).1 = HandleResult.saved ∧
    (handleEvent e cfg cache lim now ipGroup oracle).2.2 e.pubKey = lim e.pubKey := by
  have hage' : (86400 : ℚ) < now - (e.createdAt : ℚ) := hage
  have hnotmid : ¬ ((lookupRank e ipGroup cfg cache lim now oracle).1 < cfg.MidThreshold) :=
    not_lt.mpr (le_trans (le_of_lt hMH) hrank)
  unfold handleEvent
  rw [if_neg (fun hcon => hnotmid hcon.1),
    if_neg (fun hcon => hnotmid hcon.2.1),
    if_neg (show ¬ timestampSanityWindow < (e.createdAt : ℚ) - now by
      show ¬ (86400 : ℚ) < (e.createdAt : ℚ) - now
      linarith),
    hH]
  dsimp only
  rw [if_pos ⟨hrank, hage⟩]
  exact ⟨rfl, lookupRank_lim_other e ipGroup cfg cache lim now oracle e.pubKey hkey⟩

/-- C4 witness: a kind-3 event from a pubkey cached with rank 0 under
`MidThreshold = 1/2` is rejected `KindNotAllowed` with the pubkey's
bucket untouched. -/
theorem kind_gate_rejects_witness :
    (handleEvent ⟨"pk", 3, 0, "hi"⟩ ⟨1/2, none, false, 100⟩
      ⟨fun k => if k = "pk" then some ⟨10, 0⟩ else none, [], 0⟩
      emptyLimiter 10 "g" (Except.error ())).1 = HandleResult.kindNotAllowed ∧
    (handleEvent ⟨"pk", 3, 0, "hi"⟩ ⟨1/2, none, false, 100⟩
      ⟨fun k => if k = "pk" then some ⟨10, 0⟩ else none, [], 0⟩
      emptyLimiter 10 "g" (Except.error ())).2.2 "pk" = emptyLimiter "pk" :=
  kind_gate_rejects ⟨"pk", 3, 0, "hi"⟩ ⟨1/2, none, false, 100⟩
    ⟨fun k => if k = "pk" then some ⟨10, 0⟩ else none, [], 0⟩
    emptyLimiter 10 "g" (Except.error ())
    (by norm_num [lookupRank, Rank])
    (by decide)
    (by decide)

/-- C5 witness: with both gates passing (kind 1, URL policy disabled), an
event dated about 55h in the future is rejected `InvalidTimestamp` and
the iff evaluates as the claim states. -/
theorem timestamp_gate_iff_witness :
    ((handleEvent ⟨"pk", 1, 200000, "hi"⟩ ⟨1/2, none, false, 100⟩
      ⟨fun k => if k = "pk" then some ⟨10, 0⟩ else none, [], 0⟩
      emptyLimiter 10 "g" (Except.error ())).1 = HandleResult.invalidTimestamp ↔
      timestampSanityWindow < ((200000 : ℤ) : ℚ) - 10) :=
  timestamp_gate_iff ⟨"pk", 1, 200000, "hi"⟩ ⟨1/2, none, false, 100⟩
    ⟨fun k => if k = "pk" then some ⟨10, 0⟩ else none, [], 0⟩
    emptyLimiter 10 "g" (Except.error ())
    (fun h => h.2 rfl)
    (fun h => by simp at h)

/-- C6 witness: a 48h-old event from a pubkey cached with rank 1 under
`HighThreshold = 9/10` is saved with the pubkey's bucket untouched. -/
theorem backfill_exemption_witness :
    (handleEvent ⟨"pk", 5, 0, "hi"⟩ ⟨1/2, some (9/10), false, 100⟩
      ⟨fun k => if k = "pk" then some ⟨200000, 1⟩ else none, [], 0⟩
      emptyLimiter 200000 "g" (Except.error ())).1 = HandleResult.saved ∧
    (handleEvent ⟨"pk", 5, 0, "hi"⟩ ⟨1/2, some (9/10), false, 100⟩
      ⟨fun k => if k = "pk" then some ⟨200000, 1⟩ else none, [], 0⟩
      emptyLimiter 200000 "g" (Except.error ())).2.2 "pk" = emptyLimiter "pk" :=
  backfill_exemption ⟨"pk", 5, 0, "hi"⟩ ⟨1/2, some (9/10), false, 100⟩
    ⟨fun k => if k = "pk" then some ⟨200000, 1⟩ else none, [], 0⟩
    emptyLimiter 200000 "g" (Except.error ()) (9/10)
    rfl
    (by norm_num)
    (by norm_num [lookupRank, Rank])
    (by norm_num [backfillAgeThreshold])
    (by decide)

end Wotrlay
